import Mathlib

/-!
Formal model of the MultiAudio audio-cleanup pipeline: the `BufferQueue`
producer/consumer handoff, the `Limiter`, `NoiseGate` and `ThreeBandEQ`
effects, and the `applyDeEsser` batch function, together with proofs of
their key behavioural properties.  Machine floating-point values are
modelled by exact real arithmetic, audio blocks by lists of reals, and the
FFTW transforms by the discrete Fourier transform over `ℂ`.
-/

noncomputable section

open Real Complex Filter Set Topology

/-- Discrete Fourier transform of length `N` with the FFTW forward sign
convention (`e^{-2πikn/N}`, unnormalized), modelling
`fftw_plan_dft_1d(N, in, out, FFTW_FORWARD, ...)` and the forward half of
`fftw_plan_dft_r2c_1d`. -/
def dft (N : ℕ) (x : ℕ → ℂ) (k : ℕ) : ℂ :=
  ∑ n ∈ Finset.range N, x n * Complex.exp (-(2 * Real.pi * Complex.I) * k * n / N)

/-- Unnormalized inverse-direction transform (`e^{+2πijk/N}`), modelling
`fftw_plan_dft_1d(N, in, out, FFTW_BACKWARD, ...)`.  FFTW leaves the factor
`N` in place; callers divide by the frame size themselves. -/
def idft (N : ℕ) (X : ℕ → ℂ) (j : ℕ) : ℂ :=
  ∑ k ∈ Finset.range N, X k * Complex.exp ((2 * Real.pi * Complex.I) * j * k / N)

/-- Small constant preventing division by zero (`TIME_EPSILON` in
`src/effects/Limiter.cpp`, also `NG_TIME_EPSILON` in
`src/effects/NoiseGate.h`; both are `1e-6f`). -/
def TIME_EPSILON : ℝ := 1e-6

/-- Largest absolute value over a block of samples (`0` for the empty
block). -/
def maxAbs (l : List ℝ) : ℝ := l.foldr (fun x m => max |x| m) 0

/-- State of `audio::Limiter` (src/effects/Limiter.h): sample rate,
clamped parameters, derived smoothing coefficients, the smoothed gain and
the atomic enable flag. -/
structure Limiter where
  sampleRate : ℕ
  threshold : ℝ
  attackTimeMs : ℝ
  releaseTimeMs : ℝ
  attackCoeff : ℝ
  releaseCoeff : ℝ
  currentGain : ℝ
  limiterActive : Bool

/-- `Limiter::calculateCoeffs`: smoothing coefficients
`exp(-1/(max(eps, ms/1000) * sampleRate))`. -/
def Limiter.calculateCoeffs (s : Limiter) : Limiter :=
  let attackSeconds := max TIME_EPSILON (s.attackTimeMs / 1000)
  let releaseSeconds := max TIME_EPSILON (s.releaseTimeMs / 1000)
  { s with
    attackCoeff := Real.exp (-1 / (attackSeconds * s.sampleRate)),
    releaseCoeff := Real.exp (-1 / (releaseSeconds * s.sampleRate)) }

/-- `Limiter::setThreshold`: clamp to `[0, 1]`. -/
def Limiter.setThreshold (s : Limiter) (newThreshold : ℝ) : Limiter :=
  { s with threshold := max 0 (min 1 newThreshold) }

/-- `Limiter::setAttackTime`: clamp below at `0.1` ms and recompute the
coefficients. -/
def Limiter.setAttackTime (s : Limiter) (ms : ℝ) : Limiter :=
  Limiter.calculateCoeffs { s with attackTimeMs := max 0.1 ms }

/-- `Limiter::setReleaseTime`: clamp below at `1.0` ms and recompute the
coefficients. -/
def Limiter.setReleaseTime (s : Limiter) (ms : ℝ) : Limiter :=
  Limiter.calculateCoeffs { s with releaseTimeMs := max 1 ms }

/-- `Limiter::setEnabled`: store the flag; on disabling, reset the gain to
unity. -/
def Limiter.setEnabled (s : Limiter) (isEnabled : Bool) : Limiter :=
  let s1 := { s with limiterActive := isEnabled }
  if isEnabled then s1 else { s1 with currentGain := 1 }

/-- The `Limiter` constructor: gain starts at unity, the limiter starts
disabled, and the three setters install the clamped parameters.  The
pre-setter parameter fields are uninitialized in C++ and are given
arbitrary values (`0`) here; every one of them is overwritten before the
constructor returns. -/
def Limiter.construct (rate : ℕ) (thresh attackMs releaseMs : ℝ) : Limiter :=
  ((({ sampleRate := rate, threshold := 0, attackTimeMs := 0, releaseTimeMs := 0,
       attackCoeff := 0, releaseCoeff := 0, currentGain := 1,
       limiterActive := false : Limiter
     }.setThreshold thresh).setAttackTime attackMs).setReleaseTime releaseMs)

/-- One iteration of the `Limiter::process` loop: target gain is unity
below threshold, else `threshold / (|x| + eps)`; the current gain moves
toward the target with the attack coefficient (clamped not to undershoot
the target) when reducing, and with the release coefficient (clamped not
to exceed `1`) when recovering.  The output sample is `x * currentGain`. -/
def Limiter.processSample (s : Limiter) (x : ℝ) : Limiter × ℝ :=
  let inputAbs := |x|
  let targetGain := if inputAbs ≤ s.threshold then 1 else s.threshold / (inputAbs + TIME_EPSILON)
  let g :=
    if targetGain < s.currentGain then
      max (s.attackCoeff * s.currentGain + (1 - s.attackCoeff) * targetGain) targetGain
    else
      min (s.releaseCoeff * s.currentGain + (1 - s.releaseCoeff) * targetGain) 1
  ({ s with currentGain := g }, x * g)

/-- The `Limiter::process` sample loop over a whole block. -/
def Limiter.processRun (s : Limiter) : List ℝ → Limiter × List ℝ
  | [] => (s, [])
  | x :: xs =>
    let r := s.processSample x
    let rest := r.1.processRun xs
    (rest.1, r.2 :: rest.2)

/-- `Limiter::process`: pass the block through untouched when disabled or
empty, otherwise run the per-sample loop.  The block's length plays the
role of `bufferSize`. -/
def Limiter.process (s : Limiter) (input : List ℝ) : Limiter × List ℝ :=
  if s.limiterActive = false ∨ input.length = 0 then (s, input)
  else s.processRun input

/-- States of a `Limiter` reachable by construction followed by any
sequence of `process` / `setThreshold` / `setAttackTime` /
`setReleaseTime` / `setEnabled` calls. -/
inductive Limiter.Reachable : Limiter → Prop
  | construct (rate : ℕ) (thresh attackMs releaseMs : ℝ) :
      Limiter.Reachable (Limiter.construct rate thresh attackMs releaseMs)
  | process {s : Limiter} (input : List ℝ) :
      Limiter.Reachable s → Limiter.Reachable (s.process input).1
  | setThreshold {s : Limiter} (t : ℝ) :
      Limiter.Reachable s → Limiter.Reachable (s.setThreshold t)
  | setAttackTime {s : Limiter} (ms : ℝ) :
      Limiter.Reachable s → Limiter.Reachable (s.setAttackTime ms)
  | setReleaseTime {s : Limiter} (ms : ℝ) :
      Limiter.Reachable s → Limiter.Reachable (s.setReleaseTime ms)
  | setEnabled {s : Limiter} (b : Bool) :
      Limiter.Reachable s → Limiter.Reachable (s.setEnabled b)

/-- Invariant carried by every reachable `Limiter` state: clamped
threshold, smoothing coefficients and smoothed gain all lie in `[0, 1]`. -/
def Limiter.Inv (s : Limiter) : Prop :=
  0 ≤ s.threshold ∧ s.threshold ≤ 1 ∧
  0 ≤ s.attackCoeff ∧ s.attackCoeff ≤ 1 ∧
  0 ≤ s.releaseCoeff ∧ s.releaseCoeff ≤ 1 ∧
  0 ≤ s.currentGain ∧ s.currentGain ≤ 1

/-- Concrete reachable `Limiter` used to witness the block-peak bound: the
default construction followed by `setEnabled(true)`. -/
def limiterWitnessState : Limiter :=
  (Limiter.construct 48000 0.02 5 100).setEnabled true

/-- State of `audio::BufferQueue` (src/audio/BufferQueue.h): the FIFO of
audio blocks, the fixed capacity and the atomic shutdown flag.  The mutex
and condition variables have no state beyond the wait conditions they
evaluate, which are inlined into `push` and `pop`. -/
structure BufferQueue where
  bufferQueue : List (List ℝ)
  queueCapacity : ℕ
  done : Bool

/-- The `BufferQueue` constructor: empty queue, given capacity, not done. -/
def BufferQueue.construct (capacity : ℕ) : BufferQueue :=
  { bufferQueue := [], queueCapacity := capacity, done := false }

/-- `BufferQueue::push`: the wait returns once `size < capacity` or `done`
holds; a push that observes shutdown drops the block, otherwise it
enqueues at the back.  When the queue is full and not done the wait never
returns within a single-threaded run, so the state is left unchanged (the
call has not completed). -/
def BufferQueue.push (s : BufferQueue) (buffer : List ℝ) : BufferQueue :=
  if s.done then s
  else if s.bufferQueue.length < s.queueCapacity then
    { s with bufferQueue := s.bufferQueue ++ [buffer] }
  else s

/-- `BufferQueue::pop`: the wait returns once the queue is non-empty or
`done` holds; failure (`false`, modelled as `none`) is returned exactly
when the queue is empty and shutdown was signalled, otherwise the front
block is dequeued.  The `[]`-and-not-done branch corresponds to a wait
that never returns within a single-threaded run and leaves the state
unchanged. -/
def BufferQueue.pop (s : BufferQueue) : Option (List ℝ) × BufferQueue :=
  if s.bufferQueue.isEmpty && s.done then (none, s)
  else
    match s.bufferQueue with
    | [] => (none, s)
    | buffer :: rest => (some buffer, { s with bufferQueue := rest })

/-- `BufferQueue::setDone`: set the permanent shutdown flag (the
notifications wake waiters but change no queue state). -/
def BufferQueue.setDone (s : BufferQueue) : BufferQueue :=
  { s with done := true }

/-- One queue operation of a producer/consumer history. -/
inductive BufferQueue.Op where
  | push (buffer : List ℝ)
  | pop
  | setDone

/-- A running history: the current queue state, the blocks returned by
successful pops (in order), and the blocks actually accepted (enqueued) by
pushes (in order). -/
structure BufferQueue.Trace where
  state : BufferQueue
  popped : List (List ℝ)
  accepted : List (List ℝ)

/-- Execute one operation on a trace, recording accepted pushes and
successful pops. -/
def BufferQueue.step (t : BufferQueue.Trace) : BufferQueue.Op → BufferQueue.Trace
  | .push b =>
    { state := t.state.push b
      popped := t.popped
      accepted :=
        if t.state.done = false ∧ t.state.bufferQueue.length < t.state.queueCapacity then
          t.accepted ++ [b]
        else t.accepted }
  | .pop =>
    { state := t.state.pop.2
      popped :=
        match t.state.pop.1 with
        | some b => t.popped ++ [b]
        | none => t.popped
      accepted := t.accepted }
  | .setDone => { t with state := t.state.setDone }

/-- Execute a whole operation sequence from a freshly constructed queue. -/
def BufferQueue.run (capacity : ℕ) (ops : List BufferQueue.Op) : BufferQueue.Trace :=
  ops.foldl BufferQueue.step
    { state := BufferQueue.construct capacity, popped := [], accepted := [] }

/-- `NUM_BANDS` from src/common.h. -/
def NUM_BANDS : ℕ := 4

/-- Band assignment of `NoiseGate::calculateBandEnergies`
(src/effects/NoiseGate.cpp): logarithmically spaced via
`(NUM_BANDS - 1) * log2(i) / log2(fftSize/2 - 1)`, truncated to an
unsigned integer and clamped to the last band. -/
def NoiseGate.bandOf (fftSize i : ℕ) : ℕ :=
  min ⌊((NUM_BANDS : ℝ) - 1) * Real.logb 2 i / Real.logb 2 ((fftSize / 2 - 1 : ℕ) : ℝ)⌋₊
    (NUM_BANDS - 1)

/-- Squared magnitude (`real*real + imaginary*imaginary`) of one bin. -/
def NoiseGate.binEnergy (X : ℕ → ℂ) (i : ℕ) : ℝ :=
  (X i).re * (X i).re + (X i).im * (X i).im

/-- One iteration of the `NoiseGate::calculateBandEnergies` bin loop:
skip a non-positive bin index (the loop guard `i > 0`), otherwise
accumulate the bin's energy into its clamped band if the band index is in
range. -/
def NoiseGate.bandStep (fftSize : ℕ) (X : ℕ → ℂ) (bandEnergies : List ℝ) (i : ℕ) : List ℝ :=
  if 0 < i then
    let band := NoiseGate.bandOf fftSize i
    if band < bandEnergies.length then
      bandEnergies.set band (bandEnergies.getD band 0 + NoiseGate.binEnergy X i)
    else bandEnergies
  else bandEnergies

/-- `NoiseGate::calculateBandEnergies` (src/effects/NoiseGate.cpp): reset
the band accumulators to zero and accumulate the energy of bins
`1 .. fftSize/2 - 1` (the loop runs `for i = 1; i < fftSize/2`). -/
def NoiseGate.calculateBandEnergies (fftSize : ℕ) (X : ℕ → ℂ) : List ℝ :=
  (List.range' 1 (fftSize / 2 - 1)).foldl (NoiseGate.bandStep fftSize X)
    (List.replicate NUM_BANDS 0)

/-- The zero-padded transform input of `NoiseGate::determineTargetGain`:
`timeData` is zero-filled and the first `min(numFrames, fftSize)` samples
are copied in. -/
def NoiseGate.paddedInput (fftSize : ℕ) (input : List ℝ) : ℕ → ℂ :=
  fun n => if n < min input.length fftSize then ((input.getD n 0 : ℝ) : ℂ) else 0

/-- The decision half of `NoiseGate::determineTargetGain`, as a function
of the spectrum: band energies, their total, average over `NUM_BANDS`,
normalization by the transform size, and the binary comparison against
`threshold²`. -/
def NoiseGate.gateDecision (fftSize : ℕ) (threshold : ℝ) (X : ℕ → ℂ) : ℝ :=
  let bandEnergies := NoiseGate.calculateBandEnergies fftSize X
  let totalEnergy := bandEnergies.sum
  let avgEnergy := if 0 < NUM_BANDS then totalEnergy / NUM_BANDS else 0
  let normalizedAvgEnergy := avgEnergy / fftSize
  if threshold * threshold < normalizedAvgEnergy then 1 else 0

/-- `NoiseGate::determineTargetGain` (src/effects/NoiseGate.cpp):
zero-pad the input to the transform length, forward-transform, and apply
the banded threshold decision.  A null transform plan (`planOk = false`,
possible only when construction failed, which also disables the effect)
returns `1.0` early. -/
def NoiseGate.determineTargetGain (planOk : Bool) (fftSize : ℕ) (threshold : ℝ)
    (input : List ℝ) : ℝ :=
  if planOk = false then 1
  else NoiseGate.gateDecision fftSize threshold (dft fftSize (NoiseGate.paddedInput fftSize input))

/-- Reference target-gain computation transcribed from the specification
wording (claim C5): squared-magnitude energy for every bin except only
the DC bin, i.e. bins `1` through `fftSize/2` inclusive, fibered into
bands by the same clamped logarithmic map, averaged over `NUM_BANDS`,
divided by the transform size and compared strictly against
`threshold²`. -/
def NoiseGate.specTargetGain (fftSize : ℕ) (threshold : ℝ) (input : List ℝ) : ℝ :=
  let X := dft fftSize (NoiseGate.paddedInput fftSize input)
  let bandSum : ℕ → ℝ := fun b =>
    ∑ i ∈ (Finset.Icc 1 (fftSize / 2)).filter (fun i => NoiseGate.bandOf fftSize i = b),
      NoiseGate.binEnergy X i
  let avg := (∑ b ∈ Finset.range NUM_BANDS, bandSum b) / NUM_BANDS
  if threshold * threshold < avg / fftSize then 1 else 0

/-- The reference computation of `NoiseGate.specTargetGain` amended to
cover bins `1` through `fftSize/2 - 1` (both DC and Nyquist excluded),
which is the range the code actually visits. -/
def NoiseGate.specTargetGainExclNyquist (fftSize : ℕ) (threshold : ℝ) (input : List ℝ) : ℝ :=
  let X := dft fftSize (NoiseGate.paddedInput fftSize input)
  let bandSum : ℕ → ℝ := fun b =>
    ∑ i ∈ (Finset.Ico 1 (fftSize / 2)).filter (fun i => NoiseGate.bandOf fftSize i = b),
      NoiseGate.binEnergy X i
  let avg := (∑ b ∈ Finset.range NUM_BANDS, bandSum b) / NUM_BANDS
  if threshold * threshold < avg / fftSize then 1 else 0

/-- Band assignment of the older noise-gate revision
(`NoiseGate::calculateBandEnergies` in src/NoiseGate.cpp):
`NUM_BANDS * log2(i) / log2(fftSize/2)`, truncated, with no clamping. -/
def NoiseGateProto.bandOf (fftSize i : ℕ) : ℕ :=
  ⌊(NUM_BANDS : ℝ) * Real.logb 2 i / Real.logb 2 ((fftSize / 2 : ℕ) : ℝ)⌋₊

/-- One iteration of the older revision's bin loop: magnitude via
`sqrt`, energy `magnitude * magnitude`, accumulated when the band index is
below `NUM_BANDS`. -/
def NoiseGateProto.bandStep (fftSize : ℕ) (X : ℕ → ℂ) (bandEnergies : List ℝ) (i : ℕ) :
    List ℝ :=
  let magnitude := Real.sqrt ((X i).re * (X i).re + (X i).im * (X i).im)
  let band := NoiseGateProto.bandOf fftSize i
  if band < NUM_BANDS then
    bandEnergies.set band (bandEnergies.getD band 0 + magnitude * magnitude)
  else bandEnergies

/-- The older revision's `calculateBandEnergies` (src/NoiseGate.cpp):
accumulate bins `1 .. fftSize/2 - 1`, then normalize every band by the
transform size. -/
def NoiseGateProto.calculateBandEnergies (fftSize : ℕ) (X : ℕ → ℂ) : List ℝ :=
  ((List.range' 1 (fftSize / 2 - 1)).foldl (NoiseGateProto.bandStep fftSize X)
    (List.replicate NUM_BANDS 0)).map (fun e => e / fftSize)

/-- The older revision's `determineGateState` (src/NoiseGate.cpp): average
the (already normalized) band energies and compare against the threshold
directly, not squared. -/
def NoiseGateProto.determineGateState (fftSize : ℕ) (threshold : ℝ) (X : ℕ → ℂ) : ℝ :=
  let bandEnergies := NoiseGateProto.calculateBandEnergies fftSize X
  let totalEnergy := bandEnergies.sum
  let avgEnergy := totalEnergy / NUM_BANDS
  if threshold < avgEnergy then 1 else 0

/-- State of `audio::NoiseGate` (src/effects/NoiseGate.h).  `planOk`
models whether the FFTW resources were allocated (a failure also clears
`effectActive` at construction). -/
structure NoiseGate where
  sampleRate : ℕ
  fftSize : ℕ
  threshold : ℝ
  attackTimeMs : ℝ
  releaseTimeMs : ℝ
  attackCoeff : ℝ
  releaseCoeff : ℝ
  currentGain : ℝ
  bandEnergies : List ℝ
  effectActive : Bool
  planOk : Bool

/-- `NoiseGate::reset`: zero the band accumulators and the gain. -/
def NoiseGate.reset (s : NoiseGate) : NoiseGate :=
  { s with bandEnergies := List.replicate s.bandEnergies.length 0, currentGain := 0 }

/-- `AudioEffect::setEnabled` as inherited by `NoiseGate`: store the flag
and reset on disabling. -/
def NoiseGate.setEnabled (s : NoiseGate) (isEnabled : Bool) : NoiseGate :=
  let s1 := { s with effectActive := isEnabled }
  if isEnabled then s1 else s1.reset

/-- One iteration of the `NoiseGate::process` smoothing loop: move the
gain toward the binary target with the attack coefficient while opening
(clamped not to overshoot) and the release coefficient while closing
(clamped not to undershoot). -/
def NoiseGate.smoothStep (attackCoeff releaseCoeff targetGain currentGain : ℝ) : ℝ :=
  if currentGain < targetGain then
    min (attackCoeff * currentGain + (1 - attackCoeff) * targetGain) targetGain
  else
    max (releaseCoeff * currentGain + (1 - releaseCoeff) * targetGain) targetGain

/-- The `NoiseGate::process` sample loop: smooth the gain per sample and
multiply. -/
def NoiseGate.smoothRun (attackCoeff releaseCoeff targetGain : ℝ) (currentGain : ℝ) :
    List ℝ → ℝ × List ℝ
  | [] => (currentGain, [])
  | x :: xs =>
    let g := NoiseGate.smoothStep attackCoeff releaseCoeff targetGain currentGain
    let rest := NoiseGate.smoothRun attackCoeff releaseCoeff targetGain g xs
    (rest.1, x * g :: rest.2)

/-- `NoiseGate::process` (src/effects/NoiseGate.cpp): disabled or empty
blocks are copied through (with `currentGain` forced to `0` when
disabled); otherwise the per-block target gain drives the per-sample
smoothing loop.  The `bandEnergies` member is overwritten by
`determineTargetGain` whenever the transform plan exists. -/
def NoiseGate.process (s : NoiseGate) (input : List ℝ) : NoiseGate × List ℝ :=
  if s.effectActive = false ∨ input.length = 0 then
    (if s.effectActive = false then { s with currentGain := 0 } else s, input)
  else
    let targetGain := NoiseGate.determineTargetGain s.planOk s.fftSize s.threshold input
    let bandEnergies :=
      if s.planOk then
        NoiseGate.calculateBandEnergies s.fftSize
          (dft s.fftSize (NoiseGate.paddedInput s.fftSize input))
      else s.bandEnergies
    let r := NoiseGate.smoothRun s.attackCoeff s.releaseCoeff targetGain s.currentGain input
    ({ s with currentGain := r.1, bandEnergies := bandEnergies }, r.2)


/-- `NUM_EQ_BANDS` from src/common.h. -/
def NUM_EQ_BANDS : ℕ := 3

/-- Hermitian extension of a half spectrum (`fftSize/2 + 1` bins) to a
full spectrum, the contract under which FFTW's `c2r` plan interprets its
input. -/
def hermExtend (N : ℕ) (Y : ℕ → ℂ) (k : ℕ) : ℂ :=
  if k ≤ N / 2 then Y k else (starRingEnd ℂ) (Y (N - k))

/-- Model of FFTW's unnormalized complex-to-real inverse transform
(`fftw_plan_dft_c2r_1d`): the inverse transform of the Hermitian
extension, real part. -/
def fftwC2R (N : ℕ) (Y : ℕ → ℂ) (n : ℕ) : ℝ :=
  (idft N (hermExtend N Y) n).re

/-- State of `audio::ThreeBandEQ` (src/effects/ThreeBandEQ.h).  Band
arrays are total maps guarded by index checks, as in the source;
`resourcesOk` models non-null FFTW plans/buffers (a failed construction
also clears `effectActive`). -/
structure ThreeBandEQ where
  sampleRate : ℕ
  hopSize : ℕ
  fftSize : ℕ
  bandGains : ℕ → ℝ
  bandCutoffs : ℕ → ℝ
  window : List ℝ
  inputBufferInternal : List ℝ
  outputOverlapBuffer : List ℝ
  effectActive : Bool
  resourcesOk : Bool

/-- `ThreeBandEQ::setBandGain`: clamp to `[0, 6]`, ignoring out-of-range
band indices. -/
def ThreeBandEQ.setBandGain (s : ThreeBandEQ) (bandIndex : ℕ) (gain : ℝ) : ThreeBandEQ :=
  if bandIndex < NUM_EQ_BANDS then
    { s with bandGains := Function.update s.bandGains bandIndex (max 0 (min 6 gain)) }
  else s

/-- `ThreeBandEQ::setBandCutoff`: clamp to `[20 Hz, Nyquist]`, ignoring
out-of-range band indices. -/
def ThreeBandEQ.setBandCutoff (s : ThreeBandEQ) (bandIndex : ℕ) (frequency : ℝ) : ThreeBandEQ :=
  if bandIndex < NUM_EQ_BANDS then
    let nyquist := (s.sampleRate : ℝ) / 2
    { s with bandCutoffs := Function.update s.bandCutoffs bandIndex (max 20 (min nyquist frequency)) }
  else s

/-- `ThreeBandEQ::getSmoothGain` (src/effects/ThreeBandEQ.cpp): three
flat regions selected by strict comparisons against the `±20%` transition
edges, and two raised-cosine blends on the transition zones. -/
def ThreeBandEQ.getSmoothGain (s : ThreeBandEQ) (frequency : ℝ) : ℝ :=
  let transition1Start := s.bandCutoffs 0 * 0.8
  let transition1End := s.bandCutoffs 0 * 1.2
  let transition2Start := s.bandCutoffs 1 * 0.8
  let transition2End := s.bandCutoffs 1 * 1.2
  if frequency < transition1Start then s.bandGains 0
  else if transition1End < frequency ∧ frequency < transition2Start then s.bandGains 1
  else if transition2End < frequency then s.bandGains 2
  else if transition1Start ≤ frequency ∧ frequency ≤ transition1End then
    let t := (frequency - transition1Start) / (transition1End - transition1Start)
    let t2 := (1 - Real.cos (t * Real.pi)) * 0.5
    s.bandGains 0 * (1 - t2) + s.bandGains 1 * t2
  else
    let t := (frequency - transition2Start) / (transition2End - transition2Start)
    let t2 := (1 - Real.cos (t * Real.pi)) * 0.5
    s.bandGains 1 * (1 - t2) + s.bandGains 2 * t2

/-- `ThreeBandEQ::calculateWindow`: the Hann window over `fftSize`
points. -/
def ThreeBandEQ.calculateWindow (fftSize : ℕ) : List ℝ :=
  (List.range fftSize).map
    (fun i => 0.5 * (1 - Real.cos (2 * Real.pi * i / ((fftSize : ℝ) - 1))))

/-- `ThreeBandEQ::applyEQGain`: scale the DC bin by the low gain, every
interior bin's magnitude by the interpolated gain with the phase
recomputed via `atan2` (`Complex.arg`), and the Nyquist bin by the high
gain. -/
def ThreeBandEQ.applyEQGain (s : ThreeBandEQ) (X : ℕ → ℂ) : ℕ → ℂ :=
  fun k =>
    if k = 0 then ⟨s.bandGains 0 * (X 0).re, s.bandGains 0 * (X 0).im⟩
    else if k < s.fftSize / 2 then
      let frequency := (k : ℝ) * s.sampleRate / s.fftSize
      let gain := s.getSmoothGain frequency
      let re := (X k).re
      let im := (X k).im
      let magnitude := Real.sqrt (re * re + im * im) * gain
      let phase := Complex.arg ⟨re, im⟩
      ⟨magnitude * Real.cos phase, magnitude * Real.sin phase⟩
    else if k = s.fftSize / 2 ∧ k < s.fftSize then
      ⟨s.bandGains 2 * (X k).re, s.bandGains 2 * (X k).im⟩
    else X k

/-- `ThreeBandEQ::reset`: zero the sliding input history and the
overlap-add tail, keeping their sizes. -/
def ThreeBandEQ.reset (s : ThreeBandEQ) : ThreeBandEQ :=
  { s with
    inputBufferInternal := List.replicate s.inputBufferInternal.length 0,
    outputOverlapBuffer := List.replicate s.outputOverlapBuffer.length 0 }

/-- `AudioEffect::setEnabled` as inherited by `ThreeBandEQ`: store the
flag and reset on disabling. -/
def ThreeBandEQ.setEnabled (s : ThreeBandEQ) (isEnabled : Bool) : ThreeBandEQ :=
  let s1 := { s with effectActive := isEnabled }
  if isEnabled then s1 else s1.reset

/-- `ThreeBandEQ::process` (src/effects/ThreeBandEQ.cpp).  Disabled or
empty blocks are copied through (and a disabled call resets the retained
buffers); a block whose length differs from the hop size yields a
zero-filled block with all retained state untouched; invalid resources
also yield a zero-filled block; otherwise the overlap-add pipeline runs:
shift the sliding history by one hop, append the new block, window,
forward-transform, apply the EQ gains, inverse-transform, overlap-add
into the tail, emit the first hop of the tail and refresh it.  The
block's length plays the role of `numFrames`. -/
def ThreeBandEQ.process (s : ThreeBandEQ) (input : List ℝ) : ThreeBandEQ × List ℝ :=
  let numFrames := input.length
  if s.effectActive = false ∨ numFrames = 0 then
    (if s.effectActive = false then s.reset else s, input)
  else if numFrames ≠ s.hopSize then
    (s, List.replicate numFrames 0)
  else if s.resourcesOk = false ∨ s.inputBufferInternal.length ≠ s.fftSize
      ∨ s.outputOverlapBuffer.length ≠ s.fftSize - s.hopSize
      ∨ s.window.length ≠ s.fftSize then
    (s, List.replicate numFrames 0)
  else
    let inputBufferInternal := s.inputBufferInternal.drop s.hopSize ++ input
    let timeData := List.zipWith (fun a b => a * b) inputBufferInternal s.window
    let X := dft s.fftSize (fun n => ((timeData.getD n 0 : ℝ) : ℂ))
    let X2 := s.applyEQGain X
    let timeOut := fun n => fftwC2R s.fftSize X2 n
    let updatedOverlap := (List.range (s.fftSize - s.hopSize)).map
      (fun i => s.outputOverlapBuffer.getD i 0 + timeOut i / s.fftSize)
    let output := (List.range s.hopSize).map (fun i => updatedOverlap.getD i 0)
    let outputOverlapBuffer :=
      updatedOverlap.drop s.hopSize ++
        (List.range s.hopSize).map (fun i => timeOut (s.fftSize - s.hopSize + i) / s.fftSize)
    ({ s with
        inputBufferInternal := inputBufferInternal,
        outputOverlapBuffer := outputOverlapBuffer },
     output)

/-- Concrete enabled `ThreeBandEQ` with hop size `4`, used to witness the
invalid-block-size behaviour. -/
def eqWitnessState : ThreeBandEQ :=
  { sampleRate := 48000, hopSize := 4, fftSize := 8,
    bandGains := fun _ => 1, bandCutoffs := fun b => if b = 0 then 250 else 4000,
    window := List.replicate 8 0,
    inputBufferInternal := List.replicate 8 0,
    outputOverlapBuffer := List.replicate 4 0,
    effectActive := true, resourcesOk := true }

/-- Concrete `ThreeBandEQ` whose clamped settings make `getSmoothGain`
discontinuous: the mid/high cutoff (`50` Hz) sits below the low/mid
cutoff (`100` Hz), both within the clamp range `[20, 24000]`, with band
gains `0`, `1`, `6` all within `[0, 6]`. -/
def eqDiscontinuousState : ThreeBandEQ :=
  { sampleRate := 48000, hopSize := 4, fftSize := 8,
    bandGains := fun b => if b = 0 then 0 else if b = 1 then 1 else 6,
    bandCutoffs := fun b => if b = 0 then 100 else if b = 1 then 50 else 24000,
    window := List.replicate 8 0,
    inputBufferInternal := List.replicate 8 0,
    outputOverlapBuffer := List.replicate 4 0,
    effectActive := true, resourcesOk := true }


/-- The fixed frame size of `applyDeEsser` (`FRAME_SIZE = 2048`). -/
def DEESSER_FRAME_SIZE : ℕ := 2048

/-- The bin-selection condition of the `applyDeEsser` reduction loop:
`freq = j * sampleRate / FRAME_SIZE` lies in `[startFreq, endFreq]`.
The quotient is exact in double precision for all in-range arguments, so
exact rational arithmetic is a faithful model of the comparison. -/
abbrev deEsserFreqSelected (sampleRate startFreq endFreq : ℤ) (j : ℕ) : Prop :=
  (startFreq : ℚ) ≤ (j : ℚ) * (sampleRate : ℚ) / 2048
    ∧ (j : ℚ) * (sampleRate : ℚ) / 2048 ≤ (endFreq : ℚ)

/-- One bin update of the reduction loop: multiply both components of
`out[i]` by the linear reduction factor.  `List.set` ignores an
out-of-range index, giving the total model of the write. -/
def scaleAt (out : List ℂ) (i : ℕ) (reduction : ℝ) : List ℂ :=
  out.set i ⟨reduction * (out.getD i 0).re, reduction * (out.getD i 0).im⟩

/-- The frequency-selective reduction loop of `applyDeEsser`
(src/effects/DeEsser.cpp, lines 58-69): for every `j < FRAME_SIZE / 2`
whose frequency lies in the band, scale bin `j` and its mirror bin
`FRAME_SIZE - j`. -/
def applyDeEsserReductionPass (sampleRate startFreq endFreq : ℤ) (reduction : ℝ)
    (out : List ℂ) : List ℂ :=
  (List.range (2048 / 2)).foldl
    (fun acc j =>
      if deEsserFreqSelected sampleRate startFreq endFreq j then
        scaleAt (scaleAt acc j reduction) (2048 - j) reduction
      else acc)
    out

/-- One frame of `applyDeEsser`: load the (zero-padded) frame, forward
transform, apply the reduction loop, inverse transform, normalize by the
frame size and write back the first `frame.length` samples. -/
def applyDeEsserFrame (sampleRate startFreq endFreq : ℤ) (reduction : ℝ)
    (frame : List ℝ) : List ℝ :=
  let inBuf : ℕ → ℂ := fun j => if j < frame.length then ((frame.getD j 0 : ℝ) : ℂ) else 0
  let out := (List.range 2048).map (fun k => dft 2048 inBuf k)
  let out2 := applyDeEsserReductionPass sampleRate startFreq endFreq reduction out
  (List.range frame.length).map (fun j => (idft 2048 (fun k => out2.getD k 0) j).re / 2048)

/-- The frame loop of `applyDeEsser`: process the samples in consecutive
frames of `FRAME_SIZE`, the final frame possibly partial. -/
def applyDeEsserFrames (sampleRate startFreq endFreq : ℤ) (reduction : ℝ)
    (samples : List ℝ) : List ℝ :=
  if h : samples = [] then []
  else
    applyDeEsserFrame sampleRate startFreq endFreq reduction (samples.take 2048)
      ++ applyDeEsserFrames sampleRate startFreq endFreq reduction (samples.drop 2048)
termination_by samples.length
decreasing_by
  have : 0 < samples.length := List.length_pos.mpr h
  simp [List.length_drop]
  omega

/-- `audio::applyDeEsser` (src/effects/DeEsser.cpp): empty input returns
immediately; otherwise the dB reduction becomes the linear factor
`10^(-reductionDB/20)` and the samples are processed frame by frame. -/
def applyDeEsser (samples : List ℝ) (sampleRate startFreq endFreq : ℤ)
    (reductionDB : ℝ) : List ℝ :=
  if samples = [] then samples
  else
    applyDeEsserFrames sampleRate startFreq endFreq
      ((10 : ℝ) ^ (-reductionDB / 20)) samples

/-- Every array index touched by the reduction loop of `applyDeEsser`:
for each selected `j`, the loop reads and writes bins `j` and
`FRAME_SIZE - j`. -/
def deEsserAccessedIndices (sampleRate startFreq endFreq : ℤ) : List ℕ :=
  ((List.range (2048 / 2)).filter
    (fun j => decide (deEsserFreqSelected sampleRate startFreq endFreq j))).flatMap
    (fun j => [j, 2048 - j])


/-! ## Theorems -/

theorem maxAbs_nonneg (l : List ℝ) : 0 ≤ maxAbs l := by
  induction l with
  | nil => simp [maxAbs]
  | cons x xs ih => simpa [maxAbs] using Or.inr ih

theorem maxAbs_cons (x : ℝ) (xs : List ℝ) : maxAbs (x :: xs) = max |x| (maxAbs xs) := rfl

theorem maxAbs_le (l : List ℝ) (M : ℝ) (h0 : 0 ≤ M) (h : ∀ y ∈ l, |y| ≤ M) :
    maxAbs l ≤ M := by
  induction l with
  | nil => simpa [maxAbs]
  | cons x xs ih =>
    rw [maxAbs_cons]
    exact max_le (h x (by simp)) (ih fun y hy => h y (by simp [hy]))

theorem exp_coeff_mem (seconds : ℝ) (rate : ℕ) :
    0 ≤ Real.exp (-1 / (max TIME_EPSILON seconds * rate)) ∧
      Real.exp (-1 / (max TIME_EPSILON seconds * rate)) ≤ 1 := by
  refine ⟨(Real.exp_pos _).le, ?_⟩
  rw [Real.exp_le_one_iff]
  have hden : 0 ≤ max TIME_EPSILON seconds * rate := by
    have : (0 : ℝ) ≤ max TIME_EPSILON seconds :=
      le_trans (by norm_num [TIME_EPSILON]) (le_max_left _ _)
    positivity
  rw [neg_div]
  simpa using one_div_nonneg.mpr hden

theorem calculateCoeffs_inv (s : Limiter)
    (h : 0 ≤ s.threshold ∧ s.threshold ≤ 1 ∧ 0 ≤ s.currentGain ∧ s.currentGain ≤ 1) :
    Limiter.Inv s.calculateCoeffs := by
  obtain ⟨h1, h2, h3, h4⟩ := h
  refine ⟨h1, h2, ?_, ?_, ?_, ?_, h3, h4⟩ <;>
    simp only [Limiter.calculateCoeffs] <;>
    first
      | exact (exp_coeff_mem _ _).1
      | exact (exp_coeff_mem _ _).2

theorem setThreshold_inv (s : Limiter) (t : ℝ) (h : Limiter.Inv s) :
    Limiter.Inv (s.setThreshold t) := by
  obtain ⟨_, _, h3, h4, h5, h6, h7, h8⟩ := h
  refine ⟨?_, ?_, h3, h4, h5, h6, h7, h8⟩ <;> simp [Limiter.setThreshold]

theorem setAttackTime_inv (s : Limiter) (ms : ℝ) (h : Limiter.Inv s) :
    Limiter.Inv (s.setAttackTime ms) := by
  obtain ⟨h1, h2, _, _, _, _, h7, h8⟩ := h
  exact calculateCoeffs_inv _ ⟨h1, h2, h7, h8⟩

theorem setReleaseTime_inv (s : Limiter) (ms : ℝ) (h : Limiter.Inv s) :
    Limiter.Inv (s.setReleaseTime ms) := by
  obtain ⟨h1, h2, _, _, _, _, h7, h8⟩ := h
  exact calculateCoeffs_inv _ ⟨h1, h2, h7, h8⟩

theorem setEnabled_inv (s : Limiter) (b : Bool) (h : Limiter.Inv s) :
    Limiter.Inv (s.setEnabled b) := by
  obtain ⟨h1, h2, h3, h4, h5, h6, h7, h8⟩ := h
  cases b <;>
    exact ⟨h1, h2, h3, h4, h5, h6, by simp [Limiter.setEnabled, h7], by simp [Limiter.setEnabled, h8]⟩

theorem construct_inv (rate : ℕ) (thresh attackMs releaseMs : ℝ) :
    Limiter.Inv (Limiter.construct rate thresh attackMs releaseMs) := by
  apply setReleaseTime_inv
  apply setAttackTime_inv
  apply setThreshold_inv
  exact ⟨le_refl 0, by norm_num, le_refl 0, by norm_num, le_refl 0, by norm_num, by norm_num, le_refl 1⟩

theorem targetGain_mem (s : Limiter) (x : ℝ) (h1 : 0 ≤ s.threshold) (h2 : s.threshold ≤ 1) :
    0 ≤ (if |x| ≤ s.threshold then (1 : ℝ) else s.threshold / (|x| + TIME_EPSILON)) ∧
      (if |x| ≤ s.threshold then (1 : ℝ) else s.threshold / (|x| + TIME_EPSILON)) ≤ 1 := by
  split
  · exact ⟨by norm_num, le_refl 1⟩
  · rename_i hgt
    push_neg at hgt
    have hpos : 0 < |x| + TIME_EPSILON := by
      have := abs_nonneg x
      norm_num [TIME_EPSILON]
      linarith
    constructor
    · exact div_nonneg h1 hpos.le
    · rw [div_le_one hpos]
      have heps : (0 : ℝ) < TIME_EPSILON := by norm_num [TIME_EPSILON]
      linarith

theorem processSample_inv (s : Limiter) (x : ℝ) (h : Limiter.Inv s) :
    Limiter.Inv (s.processSample x).1 ∧ |(s.processSample x).2| ≤ |x| := by
  obtain ⟨h1, h2, h3, h4, h5, h6, h7, h8⟩ := h
  obtain ⟨ht0, ht1⟩ := targetGain_mem s x h1 h2
  simp only [Limiter.processSample]
  set t := if |x| ≤ s.threshold then (1 : ℝ) else s.threshold / (|x| + TIME_EPSILON) with hT
  set g := if t < s.currentGain then
      max (s.attackCoeff * s.currentGain + (1 - s.attackCoeff) * t) t
    else
      min (s.releaseCoeff * s.currentGain + (1 - s.releaseCoeff) * t) 1 with hG
  have hg0 : 0 ≤ g := by
    rw [hG]
    split
    · exact le_trans ht0 (le_max_right _ _)
    · refine le_min ?_ (by norm_num)
      have := mul_nonneg h5 h7
      nlinarith
  have hg1 : g ≤ 1 := by
    rw [hG]
    split
    · rename_i hlt
      refine max_le ?_ ht1
      nlinarith
    · exact min_le_right _ _
  refine ⟨⟨h1, h2, h3, h4, h5, h6, hg0, hg1⟩, ?_⟩
  rw [abs_mul]
  calc |x| * |g| ≤ |x| * 1 := by
        have : |g| ≤ 1 := by rw [abs_le]; exact ⟨by linarith, hg1⟩
        exact mul_le_mul_of_nonneg_left this (abs_nonneg x)
    _ = |x| := mul_one _

theorem processRun_inv (l : List ℝ) (s : Limiter) (h : Limiter.Inv s) :
    Limiter.Inv (s.processRun l).1 ∧ ∀ y ∈ (s.processRun l).2, |y| ≤ maxAbs l := by
  induction l generalizing s with
  | nil => simpa [Limiter.processRun] using h
  | cons x xs ih =>
    obtain ⟨hinv, hout⟩ := processSample_inv s x h
    obtain ⟨hinv2, hbound⟩ := ih (s.processSample x).1 hinv
    refine ⟨hinv2, ?_⟩
    intro y hy
    simp only [Limiter.processRun, List.mem_cons] at hy
    rcases hy with hy | hy
    · subst hy
      exact le_trans hout (by rw [maxAbs_cons]; exact le_max_left _ _)
    · exact le_trans (hbound y hy) (by rw [maxAbs_cons]; exact le_max_right _ _)

theorem process_inv (s : Limiter) (input : List ℝ) (h : Limiter.Inv s) :
    Limiter.Inv (s.process input).1 := by
  unfold Limiter.process
  split
  · exact h
  · exact (processRun_inv input s h).1

theorem reachable_inv (s : Limiter) (h : Limiter.Reachable s) : Limiter.Inv s := by
  induction h with
  | construct rate thresh attackMs releaseMs => exact construct_inv rate thresh attackMs releaseMs
  | process input _ ih => exact process_inv _ input ih
  | setThreshold t _ ih => exact setThreshold_inv _ t ih
  | setAttackTime ms _ ih => exact setAttackTime_inv _ ms ih
  | setReleaseTime ms _ ih => exact setReleaseTime_inv _ ms ih
  | setEnabled b _ ih => exact setEnabled_inv _ b ih

/-- C1: from any state reachable by construction followed by any sequence
of `process` / `setThreshold` / `setAttackTime` / `setReleaseTime` /
`setEnabled` calls, `Limiter::process` on an enabled limiter never raises
the block peak: the maximum absolute value over the output block is at
most the maximum absolute value over the input block (the smoothed
`currentGain` stays in `[0, 1]` throughout). -/
theorem limiter_process_peak_bounded (s : Limiter) (input : List ℝ)
    (hs : Limiter.Reachable s) (hact : s.limiterActive = true) :
    maxAbs (s.process input).2 ≤ maxAbs input := by
  have hinv := reachable_inv s hs
  unfold Limiter.process
  split
  · exact le_refl _
  · exact maxAbs_le _ _ (maxAbs_nonneg input) (processRun_inv input s hinv).2

theorem limiter_process_peak_bounded_witness :
    maxAbs (limiterWitnessState.process [1, -2]).2 ≤ maxAbs [1, -2] :=
  limiter_process_peak_bounded limiterWitnessState [1, -2]
    (Limiter.Reachable.setEnabled true (Limiter.Reachable.construct 48000 0.02 5 100))
    rfl

theorem bufferQueue_step_invariant (t : BufferQueue.Trace)
    (h : t.popped ++ t.state.bufferQueue = t.accepted) (op : BufferQueue.Op) :
    (BufferQueue.step t op).popped ++ (BufferQueue.step t op).state.bufferQueue
      = (BufferQueue.step t op).accepted := by
  cases op with
  | push b =>
    simp only [BufferQueue.step, BufferQueue.push]
    split
    · rename_i hdone
      rw [if_neg (by simp [hdone])]
      exact h
    · split
      · rename_i hdone hlt
        rw [if_pos ⟨by simpa using hdone, hlt⟩, ← h, List.append_assoc]
      · rename_i hdone hlt
        rw [if_neg (by intro hc; exact hlt hc.2)]
        exact h
  | pop =>
    simp only [BufferQueue.step]
    cases hq : t.state.bufferQueue with
    | nil =>
      have hpop : t.state.pop = (none, t.state) := by
        simp [BufferQueue.pop, hq]
      rw [hpop]
      simpa [hq] using h
    | cons b rest =>
      have hpop : t.state.pop = (some b, { t.state with bufferQueue := rest }) := by
        unfold BufferQueue.pop
        rw [if_neg (by simp [hq])]
        simp [hq]
      rw [hpop]
      rw [List.append_assoc]
      simpa [hq] using h
  | setDone =>
    simpa [BufferQueue.step, BufferQueue.setDone] using h

theorem bufferQueue_run_invariant (capacity : ℕ) (ops : List BufferQueue.Op) :
    (BufferQueue.run capacity ops).popped ++ (BufferQueue.run capacity ops).state.bufferQueue
      = (BufferQueue.run capacity ops).accepted := by
  unfold BufferQueue.run
  generalize hinit :
    ({ state := BufferQueue.construct capacity, popped := [], accepted := [] } :
      BufferQueue.Trace) = t0
  have h0 : t0.popped ++ t0.state.bufferQueue = t0.accepted := by
    rw [← hinit]; simp [BufferQueue.construct]
  clear hinit
  induction ops generalizing t0 with
  | nil => simpa using h0
  | cons op ops ih => exact ih _ (bufferQueue_step_invariant t0 h0 op)

/-- C2: over every completed sequence of `push` / `pop` / `setDone`
operations the blocks returned by `pop`, in order, followed by the blocks
still queued, are exactly the blocks pushes enqueued, in order (strict
FIFO); a completed `pop` (one whose wait condition, non-empty or shutdown,
holds) returns failure precisely when the queue is empty and `setDone` was
called, and otherwise removes and returns the oldest block. -/
theorem bufferQueue_fifo_and_pop_failure :
    (∀ (capacity : ℕ) (ops : List BufferQueue.Op),
       (BufferQueue.run capacity ops).popped ++ (BufferQueue.run capacity ops).state.bufferQueue
         = (BufferQueue.run capacity ops).accepted)
    ∧ (∀ s : BufferQueue, (s.bufferQueue ≠ [] ∨ s.done = true) →
         (s.pop.1 = none ↔ s.bufferQueue = [] ∧ s.done = true))
    ∧ (∀ (s : BufferQueue) (b : List ℝ) (rest : List (List ℝ)),
         s.bufferQueue = b :: rest → s.pop = (some b, { s with bufferQueue := rest })) := by
  refine ⟨bufferQueue_run_invariant, ?_, ?_⟩
  · intro s hwait
    unfold BufferQueue.pop
    split
    · rename_i hcond
      simp only [List.isEmpty_iff, Bool.and_eq_true] at hcond
      simp [hcond.1, hcond.2]
    · rename_i hcond
      cases hq : s.bufferQueue with
      | nil =>
        rcases hwait with hne | hdone
        · exact absurd hq hne
        · exact absurd (by simp [hq, hdone]) hcond
      | cons b rest => simp [hq]
  · intro s b rest hq
    unfold BufferQueue.pop
    rw [if_neg (by simp [hq])]
    simp [hq]

theorem bufferQueue_fifo_and_pop_failure_witness :
    (({ bufferQueue := [], queueCapacity := 3, done := true } : BufferQueue).pop.1 = none ↔
        ({ bufferQueue := [], queueCapacity := 3, done := true } : BufferQueue).bufferQueue = []
          ∧ ({ bufferQueue := [], queueCapacity := 3, done := true } : BufferQueue).done = true)
    ∧ ({ bufferQueue := [[5]], queueCapacity := 3, done := true } : BufferQueue).pop
        = (some [5],
           { ({ bufferQueue := [[5]], queueCapacity := 3, done := true } : BufferQueue) with
               bufferQueue := [] }) := by
  constructor
  · exact bufferQueue_fifo_and_pop_failure.2.1
      { bufferQueue := [], queueCapacity := 3, done := true } (Or.inr rfl)
  · exact bufferQueue_fifo_and_pop_failure.2.2 _ [5] [] rfl

/-- C7: `setDone` is idempotent (a second call changes nothing); once done,
`push` returns leaving the queue contents unchanged (the block is
dropped), while `pop` keeps returning the remaining blocks in FIFO order
and fails only once the queue is empty. -/
theorem bufferQueue_setDone_idempotent_drain :
    (∀ s : BufferQueue, s.setDone.setDone = s.setDone)
    ∧ (∀ (s : BufferQueue) (b : List ℝ), s.done = true → s.push b = s)
    ∧ (∀ (s : BufferQueue) (b : List ℝ) (rest : List (List ℝ)),
         s.done = true → s.bufferQueue = b :: rest →
           s.pop = (some b, { s with bufferQueue := rest }))
    ∧ (∀ s : BufferQueue, s.done = true → s.bufferQueue = [] → s.pop = (none, s)) := by
  refine ⟨?_, ?_, ?_, ?_⟩
  · intro s
    simp [BufferQueue.setDone]
  · intro s b hdone
    simp [BufferQueue.push, hdone]
  · intro s b rest hdone hq
    unfold BufferQueue.pop
    rw [if_neg (by simp [hq])]
    simp [hq]
  · intro s hdone hq
    simp [BufferQueue.pop, hq, hdone]

theorem bufferQueue_setDone_idempotent_drain_witness :
    ({ bufferQueue := [[2], [3]], queueCapacity := 4, done := true } : BufferQueue).push [9]
        = { bufferQueue := [[2], [3]], queueCapacity := 4, done := true }
    ∧ ({ bufferQueue := [[2], [3]], queueCapacity := 4, done := true } : BufferQueue).pop
        = (some [2],
           { ({ bufferQueue := [[2], [3]], queueCapacity := 4, done := true } : BufferQueue) with
               bufferQueue := [[3]] })
    ∧ ({ bufferQueue := [], queueCapacity := 4, done := true } : BufferQueue).pop
        = (none, { bufferQueue := [], queueCapacity := 4, done := true }) :=
  ⟨bufferQueue_setDone_idempotent_drain.2.1 _ [9] rfl,
   bufferQueue_setDone_idempotent_drain.2.2.1 _ [2] [[3]] rfl rfl,
   bufferQueue_setDone_idempotent_drain.2.2.2 _ rfl rfl⟩

theorem sum_set_getD_add (l : List ℝ) (j : ℕ) (e : ℝ) (h : j < l.length) :
    (l.set j (l.getD j 0 + e)).sum = l.sum + e := by
  induction l generalizing j with
  | nil => simp at h
  | cons x xs ih =>
    cases j with
    | zero => simp [List.set]; ring
    | succ j =>
      simp only [List.set, List.getD_cons_succ, List.sum_cons]
      rw [ih j (by simpa using h)]
      ring

theorem range'_map_sum (f : ℕ → ℝ) (a n : ℕ) :
    ((List.range' a n).map f).sum = ∑ i ∈ Finset.range n, f (a + i) := by
  induction n generalizing a with
  | zero => simp
  | succ n ih =>
    rw [List.range'_succ, Finset.sum_range_succ' (fun i => f (a + i)) n]
    simp only [List.map_cons, List.sum_cons, ih (a + 1), add_zero]
    have : ∀ i, a + 1 + i = a + (i + 1) := by omega
    simp [this]
    ring

theorem noiseGate_bandOf_lt (fftSize i : ℕ) : NoiseGate.bandOf fftSize i < NUM_BANDS := by
  unfold NoiseGate.bandOf NUM_BANDS
  exact lt_of_le_of_lt (min_le_right _ _) (by norm_num)

theorem noiseGate_bandFold_sum (fftSize : ℕ) (X : ℕ → ℂ) (L : List ℕ) (acc : List ℝ)
    (hacc : acc.length = NUM_BANDS) (hL : ∀ i ∈ L, 0 < i) :
    (L.foldl (NoiseGate.bandStep fftSize X) acc).sum
      = acc.sum + (L.map (NoiseGate.binEnergy X)).sum := by
  induction L generalizing acc with
  | nil => simp
  | cons i L ih =>
    have hi : 0 < i := hL i (by simp)
    have hband : NoiseGate.bandOf fftSize i < acc.length := by
      rw [hacc]; exact noiseGate_bandOf_lt fftSize i
    have hstep : NoiseGate.bandStep fftSize X acc i
        = acc.set (NoiseGate.bandOf fftSize i)
            (acc.getD (NoiseGate.bandOf fftSize i) 0 + NoiseGate.binEnergy X i) := by
      unfold NoiseGate.bandStep
      rw [if_pos hi, if_pos hband]
    have hlen : (NoiseGate.bandStep fftSize X acc i).length = NUM_BANDS := by
      rw [hstep]; simpa using hacc
    simp only [List.foldl_cons, List.map_cons, List.sum_cons]
    rw [ih _ hlen (fun j hj => hL j (by simp [hj])), hstep,
      sum_set_getD_add acc _ _ hband]
    ring

theorem noiseGate_calculateBandEnergies_sum (fftSize : ℕ) (X : ℕ → ℂ) :
    (NoiseGate.calculateBandEnergies fftSize X).sum
      = ∑ i ∈ Finset.Ico 1 (fftSize / 2), NoiseGate.binEnergy X i := by
  unfold NoiseGate.calculateBandEnergies
  rw [noiseGate_bandFold_sum fftSize X _ _ (by simp [NUM_BANDS])
      (fun i hi => by simpa using (List.mem_range'_1.mp hi).1)]
  rw [range'_map_sum, Finset.sum_Ico_eq_sum_range (NoiseGate.binEnergy X) 1 (fftSize / 2)]
  simp

theorem noiseGate_spec_bandSum_total (fftSize : ℕ) (X : ℕ → ℂ) (bins : Finset ℕ) :
    (∑ b ∈ Finset.range NUM_BANDS,
        ∑ i ∈ bins.filter (fun i => NoiseGate.bandOf fftSize i = b), NoiseGate.binEnergy X i)
      = ∑ i ∈ bins, NoiseGate.binEnergy X i :=
  Finset.sum_fiberwise_of_maps_to
    (fun i _ => Finset.mem_range.mpr (noiseGate_bandOf_lt fftSize i)) _

/-- C5 counterexample: at transform length `8`, threshold `1/3` and input
block `[1]` (a unit impulse, whose spectrum is `1` in every bin), the
code's target gain is `0` while the specification's reference computation
over bins `1` through `fftSize/2` inclusive yields `1`: the code never
visits the Nyquist bin `fftSize/2`. -/
theorem noiseGate_targetGain_spec_counterexample :
    NoiseGate.determineTargetGain true 8 (1 / 3) [1]
      ≠ NoiseGate.specTargetGain 8 (1 / 3) [1] := by
  have hdelta : ∀ k, dft 8 (NoiseGate.paddedInput 8 [1]) k = 1 := by
    intro k
    unfold dft
    rw [Finset.sum_eq_single_of_mem 0 (by simp)]
    · simp [NoiseGate.paddedInput]
    · intro n _ hn
      have hlt : ¬ n < 1 := by omega
      simp [NoiseGate.paddedInput, hlt]
  have hE : ∀ i, NoiseGate.binEnergy (dft 8 (NoiseGate.paddedInput 8 [1])) i = 1 := by
    intro i
    simp [NoiseGate.binEnergy, hdelta i]
  have hL : NoiseGate.determineTargetGain true 8 (1 / 3) [1] = 0 := by
    unfold NoiseGate.determineTargetGain NoiseGate.gateDecision
    rw [if_neg (by simp)]
    dsimp only
    rw [noiseGate_calculateBandEnergies_sum]
    rw [Finset.sum_congr rfl (fun i _ => hE i)]
    norm_num [NUM_BANDS]
  have hR : NoiseGate.specTargetGain 8 (1 / 3) [1] = 1 := by
    unfold NoiseGate.specTargetGain
    dsimp only
    rw [noiseGate_spec_bandSum_total]
    rw [Finset.sum_congr rfl (fun i _ => hE i)]
    norm_num [NUM_BANDS]
  rw [hL, hR]
  norm_num

/-- C5 amended: for every transform length, threshold and input block of
an enabled gate (plan allocated), the code's per-call target gain equals
the specification's reference computation restricted to bins `1` through
`fftSize/2 - 1` (DC and Nyquist both excluded). -/
theorem noiseGate_targetGain_matches_spec_excl_nyquist
    (fftSize : ℕ) (threshold : ℝ) (input : List ℝ) :
    NoiseGate.determineTargetGain true fftSize threshold input
      = NoiseGate.specTargetGainExclNyquist fftSize threshold input := by
  unfold NoiseGate.determineTargetGain NoiseGate.gateDecision NoiseGate.specTargetGainExclNyquist
  rw [if_neg (by simp)]
  dsimp only
  rw [noiseGate_calculateBandEnergies_sum, noiseGate_spec_bandSum_total]
  norm_num [NUM_BANDS]

theorem sum_map_div (l : List ℝ) (c : ℝ) :
    ((l.map (fun e => e / c)).sum) = l.sum / c := by
  induction l with
  | nil => simp
  | cons x xs ih => simp [ih, add_div]

theorem noiseGateProto_bandFold_sum (fftSize : ℕ) (X : ℕ → ℂ) (L : List ℕ) (acc : List ℝ)
    (hacc : acc.length = NUM_BANDS)
    (hband : ∀ i ∈ L, NoiseGateProto.bandOf fftSize i < NUM_BANDS) :
    (L.foldl (NoiseGateProto.bandStep fftSize X) acc).sum
      = acc.sum + (L.map (fun i =>
          Real.sqrt ((X i).re * (X i).re + (X i).im * (X i).im)
            * Real.sqrt ((X i).re * (X i).re + (X i).im * (X i).im))).sum := by
  induction L generalizing acc with
  | nil => simp
  | cons i L ih =>
    have hb : NoiseGateProto.bandOf fftSize i < acc.length := by
      rw [hacc]; exact hband i (by simp)
    have hstep : NoiseGateProto.bandStep fftSize X acc i
        = acc.set (NoiseGateProto.bandOf fftSize i)
            (acc.getD (NoiseGateProto.bandOf fftSize i) 0
              + Real.sqrt ((X i).re * (X i).re + (X i).im * (X i).im)
                * Real.sqrt ((X i).re * (X i).re + (X i).im * (X i).im)) := by
      unfold NoiseGateProto.bandStep
      rw [if_pos (hband i (by simp))]
    have hlen : (NoiseGateProto.bandStep fftSize X acc i).length = NUM_BANDS := by
      rw [hstep]; simpa using hacc
    simp only [List.foldl_cons, List.map_cons, List.sum_cons]
    rw [ih _ hlen (fun j hj => hband j (by simp [hj])), hstep,
      sum_set_getD_add acc _ _ hb]
    ring

/-- C8: the two revisions of the noise-gate threshold comparison — the
older `determineGateState` (normalize each band by the transform size,
compare the average against the threshold directly) and the newer
`gateDecision` inside `determineTargetGain` (compare the average divided
by the transform size against the threshold squared) — are not
equivalent: a spectrum with energy `4` in each of bins `1..3` at
transform length `8` and threshold `1/2` closes the old gate but opens
the new one. -/
theorem noiseGate_threshold_revisions_inequivalent :
    ∃ (X : ℕ → ℂ) (threshold : ℝ), 0 ≤ threshold ∧ threshold ≤ 1 ∧
      NoiseGateProto.determineGateState 8 threshold X
        ≠ NoiseGate.gateDecision 8 threshold X := by
  refine ⟨fun k => if k = 1 ∨ k = 2 ∨ k = 3 then 2 else 0, 1 / 2,
    by norm_num, by norm_num, ?_⟩
  set X : ℕ → ℂ := fun k => if k = 1 ∨ k = 2 ∨ k = 3 then 2 else 0 with hXdef
  have hlb4 : Real.logb 2 ((8 / 2 : ℕ) : ℝ) = 2 := by
    have h4 : ((8 / 2 : ℕ) : ℝ) = 2 ^ (2 : ℕ) := by norm_num
    rw [h4, Real.logb_pow]
    simp [Real.logb_self_eq_one]
  have hband : ∀ i ∈ List.range' 1 (8 / 2 - 1), NoiseGateProto.bandOf 8 i < NUM_BANDS := by
    intro i hi
    have hmem : 1 ≤ i ∧ i < 4 := by simpa using List.mem_range'_1.mp hi
    have hi3 : i = 1 ∨ i = 2 ∨ i = 3 := by omega
    unfold NoiseGateProto.bandOf NUM_BANDS
    rw [hlb4]
    rcases hi3 with h | h | h <;> subst h
    · simp
    · have h22 : Real.logb 2 ((2 : ℕ) : ℝ) = 1 := by
        norm_num [Real.logb_self_eq_one]
      rw [h22]
      apply (Nat.floor_lt (by norm_num)).mpr
      norm_num
    · have h3lt : Real.logb 2 3 < 2 := by
        have h1 : Real.logb 2 3 < Real.logb 2 4 := by
          apply Real.logb_lt_logb (by norm_num) (by norm_num) (by norm_num)
        have h2 : Real.logb 2 4 = 2 := by
          have h4 : (4 : ℝ) = 2 ^ (2 : ℕ) := by norm_num
          rw [h4, Real.logb_pow]
          simp [Real.logb_self_eq_one]
        linarith
      have h3nn : (0 : ℝ) ≤ Real.logb 2 3 := Real.logb_nonneg (by norm_num) (by norm_num)
      apply (Nat.floor_lt (by positivity)).mpr
      push_cast
      nlinarith
  have hEmag : ∀ i : ℕ, X i = 2 →
      Real.sqrt ((X i).re * (X i).re + (X i).im * (X i).im)
        * Real.sqrt ((X i).re * (X i).re + (X i).im * (X i).im) = 4 := by
    intro i h
    rw [h]
    have : ((2 : ℂ)).re * ((2 : ℂ)).re + ((2 : ℂ)).im * ((2 : ℂ)).im = 4 := by
      simp; norm_num
    rw [this]
    exact Real.mul_self_sqrt (by norm_num)
  have hX1 : X 1 = 2 := by simp [hXdef]
  have hX2 : X 2 = 2 := by simp [hXdef]
  have hX3 : X 3 = 2 := by simp [hXdef]
  have hold : NoiseGateProto.determineGateState 8 (1 / 2) X = 0 := by
    unfold NoiseGateProto.determineGateState NoiseGateProto.calculateBandEnergies
    dsimp only
    rw [sum_map_div, noiseGateProto_bandFold_sum 8 X _ _ (by simp [NUM_BANDS]) hband]
    rw [show List.range' 1 (8 / 2 - 1) = [1, 2, 3] from rfl]
    simp only [List.map_cons, List.map_nil, List.sum_cons, List.sum_nil,
      hEmag 1 hX1, hEmag 2 hX2, hEmag 3 hX3]
    norm_num [NUM_BANDS, List.sum_replicate]
  have hnew : NoiseGate.gateDecision 8 (1 / 2) X = 1 := by
    unfold NoiseGate.gateDecision
    dsimp only
    rw [noiseGate_calculateBandEnergies_sum]
    have hbe : ∀ i ∈ Finset.Ico 1 (8 / 2), NoiseGate.binEnergy X i = 4 := by
      intro i hi
      have hmem : 1 ≤ i ∧ i < 4 := by simpa using Finset.mem_Ico.mp hi
      have hi3 : i = 1 ∨ i = 2 ∨ i = 3 := by omega
      have hXi : X i = 2 := by rcases hi3 with h | h | h <;> subst h <;> assumption
      unfold NoiseGate.binEnergy
      rw [hXi]
      simp; norm_num
    rw [Finset.sum_congr rfl hbe, Finset.sum_const]
    norm_num [NUM_BANDS]
  rw [hold, hnew]
  norm_num

/-- C3: an enabled `ThreeBandEQ` given a non-empty block whose length
differs from the configured hop size emits an entirely zero-filled block
and leaves every retained field — the sliding input history, the
overlap-add tail and all parameters — exactly unchanged (the call returns
before touching any buffer, so no out-of-bounds access can occur). -/
theorem eq_invalid_block_size_zero_fill (s : ThreeBandEQ) (input : List ℝ)
    (hact : s.effectActive = true) (hn : input.length ≠ 0)
    (hhop : input.length ≠ s.hopSize) :
    s.process input = (s, List.replicate input.length 0) := by
  unfold ThreeBandEQ.process
  dsimp only
  rw [if_neg (by simp [hact, hn]), if_pos hhop]

theorem eq_invalid_block_size_zero_fill_witness :
    eqWitnessState.process [1, 2, 3] = (eqWitnessState, List.replicate 3 0) :=
  eq_invalid_block_size_zero_fill eqWitnessState [1, 2, 3] rfl (by norm_num)
    (by show (3 : ℕ) ≠ eqWitnessState.hopSize; simp [eqWitnessState])

/-- C4: for each of `NoiseGate`, `Limiter` and `ThreeBandEQ`,
`setEnabled false` leaves the effect disabled, and every `process` call
on a disabled effect copies the input block to the output unchanged while
the effect stays disabled — so every call after `setEnabled(false)`
passes audio through bit-for-bit, from any prior state and for any finite
block. -/
theorem effects_bypass_when_disabled :
    (∀ s : Limiter, (s.setEnabled false).limiterActive = false)
    ∧ (∀ (s : Limiter) (input : List ℝ), s.limiterActive = false →
         (s.process input).2 = input ∧ (s.process input).1.limiterActive = false)
    ∧ (∀ s : NoiseGate, (s.setEnabled false).effectActive = false)
    ∧ (∀ (s : NoiseGate) (input : List ℝ), s.effectActive = false →
         (s.process input).2 = input ∧ (s.process input).1.effectActive = false)
    ∧ (∀ s : ThreeBandEQ, (s.setEnabled false).effectActive = false)
    ∧ (∀ (s : ThreeBandEQ) (input : List ℝ), s.effectActive = false →
         (s.process input).2 = input ∧ (s.process input).1.effectActive = false) := by
  refine ⟨?_, ?_, ?_, ?_, ?_, ?_⟩
  · intro s
    simp [Limiter.setEnabled]
  · intro s input h
    unfold Limiter.process
    rw [if_pos (Or.inl h)]
    exact ⟨rfl, h⟩
  · intro s
    simp [NoiseGate.setEnabled, NoiseGate.reset]
  · intro s input h
    unfold NoiseGate.process
    dsimp only
    rw [if_pos (Or.inl h), if_pos h]
    exact ⟨rfl, h⟩
  · intro s
    simp [ThreeBandEQ.setEnabled, ThreeBandEQ.reset]
  · intro s input h
    unfold ThreeBandEQ.process
    dsimp only
    rw [if_pos (Or.inl h), if_pos h]
    exact ⟨rfl, by simp [ThreeBandEQ.reset, h]⟩

theorem effects_bypass_when_disabled_witness :
    (({ sampleRate := 48000, threshold := 0.02, attackTimeMs := 5, releaseTimeMs := 100,
        attackCoeff := 0, releaseCoeff := 0, currentGain := 1, limiterActive := false } :
          Limiter).process [3, 4]).2 = [3, 4]
    ∧ (({ sampleRate := 48000, fftSize := 8, threshold := 0.01, attackTimeMs := 5,
          releaseTimeMs := 100, attackCoeff := 0, releaseCoeff := 0, currentGain := 0,
          bandEnergies := [0, 0, 0, 0], effectActive := false, planOk := true } :
            NoiseGate).process [3, 4]).2 = [3, 4]
    ∧ ((eqWitnessState.setEnabled false).process [3, 4]).2 = [3, 4] := by
  refine ⟨(effects_bypass_when_disabled.2.1 _ [3, 4] rfl).1,
    (effects_bypass_when_disabled.2.2.2.1 _ [3, 4] rfl).1, ?_⟩
  exact (effects_bypass_when_disabled.2.2.2.2.2 (eqWitnessState.setEnabled false) [3, 4]
    (effects_bypass_when_disabled.2.2.2.2.1 eqWitnessState)).1

theorem piecewiseH_continuous (b1 b2 b3 b4 g0 g1 g2 : ℝ) (B1 B2 : ℝ → ℝ)
    (hB1 : Continuous B1) (hB2 : Continuous B2)
    (h12 : b1 ≤ b2) (h23 : b2 ≤ b3) (h34 : b3 ≤ b4)
    (hv1 : B1 b1 = g0) (hv2 : B1 b2 = g1) (hv3 : B2 b3 = g1) (hv4 : B2 b4 = g2) :
    Continuous (fun f => if f ≤ b1 then g0 else if f ≤ b2 then B1 f
      else if f ≤ b3 then g1 else if f ≤ b4 then B2 f else g2) := by
  have h4 : Continuous (fun f => if f ≤ b4 then B2 f else g2) :=
    Continuous.if_le hB2 continuous_const continuous_id continuous_const
      (fun x hx => by rw [hx]; exact hv4)
  have h3 : Continuous (fun f => if f ≤ b3 then g1 else if f ≤ b4 then B2 f else g2) :=
    Continuous.if_le continuous_const h4 continuous_id continuous_const
      (fun x hx => by rw [hx, if_pos h34]; exact hv3.symm)
  have h2 : Continuous (fun f => if f ≤ b2 then B1 f
      else if f ≤ b3 then g1 else if f ≤ b4 then B2 f else g2) :=
    Continuous.if_le hB1 h3 continuous_id continuous_const
      (fun x hx => by rw [hx, if_pos h23]; exact hv2)
  exact Continuous.if_le continuous_const h2 continuous_id continuous_const
    (fun x hx => by rw [hx, if_pos h12]; exact hv1.symm)

/-- C6 counterexample: with the clamped settings of
`eqDiscontinuousState` — cutoffs `100` and `50` Hz (each within
`[20, Nyquist]`) and gains `0`, `1`, `6` (each within `[0, 6]`) —
`getSmoothGain` is not continuous on `[0, Nyquist]`: it returns `0` on
`[0, 80)` and `6` at `80`. -/
theorem eq_getSmoothGain_discontinuous :
    ¬ ContinuousOn (fun f => eqDiscontinuousState.getSmoothGain f)
      (Set.Icc 0 ((eqDiscontinuousState.sampleRate : ℝ) / 2)) := by
  intro h
  have hval : eqDiscontinuousState.getSmoothGain 80 = 6 := by
    unfold ThreeBandEQ.getSmoothGain eqDiscontinuousState
    norm_num
  have hlow : ∀ y ∈ Set.Ico (0 : ℝ) 80, eqDiscontinuousState.getSmoothGain y = 0 := by
    intro y hy
    unfold ThreeBandEQ.getSmoothGain eqDiscontinuousState
    norm_num
    intro hge
    exact absurd hge (not_le.mpr hy.2)
  have h80 : ContinuousWithinAt (fun f => eqDiscontinuousState.getSmoothGain f)
      (Set.Icc 0 ((eqDiscontinuousState.sampleRate : ℝ) / 2)) 80 :=
    h 80 (by constructor <;> norm_num [eqDiscontinuousState])
  have hsub : Set.Ico (0 : ℝ) 80 ⊆ Set.Icc 0 ((eqDiscontinuousState.sampleRate : ℝ) / 2) := by
    intro y hy
    have h2 := hy.2
    exact ⟨hy.1, by norm_num [eqDiscontinuousState]; linarith⟩
  have htend6 : Filter.Tendsto (fun f => eqDiscontinuousState.getSmoothGain f)
      (𝓝[Set.Ico (0 : ℝ) 80] 80) (𝓝 6) := by
    have h1 := h80.mono hsub
    have hbeta : (fun f => eqDiscontinuousState.getSmoothGain f) 80 = 6 := hval
    unfold ContinuousWithinAt at h1
    rw [hbeta] at h1
    exact h1
  have htend0 : Filter.Tendsto (fun f => eqDiscontinuousState.getSmoothGain f)
      (𝓝[Set.Ico (0 : ℝ) 80] 80) (𝓝 0) := by
    apply Filter.Tendsto.congr' _ tendsto_const_nhds
    exact eventually_mem_nhdsWithin.mono (fun y hy => (hlow y hy).symm)
  have hne : (𝓝[Set.Ico (0 : ℝ) 80] 80).NeBot := by
    apply mem_closure_iff_nhdsWithin_neBot.mp
    rw [closure_Ico (by norm_num : (0 : ℝ) ≠ 80)]
    exact ⟨by norm_num, le_refl 80⟩
  have : (6 : ℝ) = 0 := tendsto_nhds_unique htend6 htend0
  norm_num at this

/-- C6 amended: for every setting of the clamped band gains and band
cutoffs whose transition zones do not overlap (the low/mid zone ends at
or before the mid/high zone starts, `cutoff0 * 1.2 ≤ cutoff1 * 0.8`),
`getSmoothGain` is a continuous function of frequency on `[0, Nyquist]`:
three flat regions bridged by two raised-cosine transitions, with no
stepwise discontinuity. -/
theorem eq_getSmoothGain_continuous (s : ThreeBandEQ)
    (hc0 : 20 ≤ s.bandCutoffs 0) (hc1 : 20 ≤ s.bandCutoffs 1)
    (hord : s.bandCutoffs 0 * 1.2 ≤ s.bandCutoffs 1 * 0.8) :
    ContinuousOn (fun f => s.getSmoothGain f)
      (Set.Icc 0 ((s.sampleRate : ℝ) / 2)) := by
  apply Continuous.continuousOn
  unfold ThreeBandEQ.getSmoothGain
  have hc0p : (0 : ℝ) < s.bandCutoffs 0 := by linarith
  have hc1p : (0 : ℝ) < s.bandCutoffs 1 := by linarith
  set c0 := s.bandCutoffs 0 with hc0def
  set c1 := s.bandCutoffs 1 with hc1def
  set G0 := s.bandGains 0 with hG0def
  set G1 := s.bandGains 1 with hG1def
  set G2 := s.bandGains 2 with hG2def
  set b1 := c0 * 0.8 with hb1def
  set b2 := c0 * 1.2 with hb2def
  set b3 := c1 * 0.8 with hb3def
  set b4 := c1 * 1.2 with hb4def
  have hb12 : b1 < b2 := by rw [hb1def, hb2def]; nlinarith
  have hb23 : b2 ≤ b3 := hord
  have hb34 : b3 < b4 := by rw [hb3def, hb4def]; nlinarith
  have hv1 : G0 * (1 - (1 - Real.cos ((b1 - b1) / (b2 - b1) * Real.pi)) * 0.5)
      + G1 * ((1 - Real.cos ((b1 - b1) / (b2 - b1) * Real.pi)) * 0.5) = G0 := by
    rw [sub_self, zero_div, zero_mul, Real.cos_zero]
    ring
  have hv2 : G0 * (1 - (1 - Real.cos ((b2 - b1) / (b2 - b1) * Real.pi)) * 0.5)
      + G1 * ((1 - Real.cos ((b2 - b1) / (b2 - b1) * Real.pi)) * 0.5) = G1 := by
    rw [div_self (by linarith : b2 - b1 ≠ 0), one_mul, Real.cos_pi]
    ring
  have hv3 : G1 * (1 - (1 - Real.cos ((b3 - b3) / (b4 - b3) * Real.pi)) * 0.5)
      + G2 * ((1 - Real.cos ((b3 - b3) / (b4 - b3) * Real.pi)) * 0.5) = G1 := by
    rw [sub_self, zero_div, zero_mul, Real.cos_zero]
    ring
  have hv4 : G1 * (1 - (1 - Real.cos ((b4 - b3) / (b4 - b3) * Real.pi)) * 0.5)
      + G2 * ((1 - Real.cos ((b4 - b3) / (b4 - b3) * Real.pi)) * 0.5) = G2 := by
    rw [div_self (by linarith : b4 - b3 ≠ 0), one_mul, Real.cos_pi]
    ring
  have hFH : (fun f : ℝ =>
      if f < b1 then G0
      else if b2 < f ∧ f < b3 then G1
      else if b4 < f then G2
      else if b1 ≤ f ∧ f ≤ b2 then
        G0 * (1 - (1 - Real.cos ((f - b1) / (b2 - b1) * Real.pi)) * 0.5)
          + G1 * ((1 - Real.cos ((f - b1) / (b2 - b1) * Real.pi)) * 0.5)
      else
        G1 * (1 - (1 - Real.cos ((f - b3) / (b4 - b3) * Real.pi)) * 0.5)
          + G2 * ((1 - Real.cos ((f - b3) / (b4 - b3) * Real.pi)) * 0.5))
      = (fun f : ℝ =>
      if f ≤ b1 then G0
      else if f ≤ b2 then
        G0 * (1 - (1 - Real.cos ((f - b1) / (b2 - b1) * Real.pi)) * 0.5)
          + G1 * ((1 - Real.cos ((f - b1) / (b2 - b1) * Real.pi)) * 0.5)
      else if f ≤ b3 then G1
      else if f ≤ b4 then
        G1 * (1 - (1 - Real.cos ((f - b3) / (b4 - b3) * Real.pi)) * 0.5)
          + G2 * ((1 - Real.cos ((f - b3) / (b4 - b3) * Real.pi)) * 0.5)
      else G2) := by
    funext f
    by_cases h1 : f < b1
    · rw [if_pos h1, if_pos h1.le]
    · push_neg at h1
      rcases eq_or_lt_of_le h1 with heq | hlt
      · rw [if_neg (by rw [← heq]; exact lt_irrefl _),
          if_neg (by rintro ⟨ha, _⟩; rw [← heq] at ha; linarith),
          if_neg (by rw [← heq]; intro ha; linarith),
          if_pos ⟨h1, by rw [← heq]; linarith⟩,
          if_pos (by rw [← heq])]
        rw [← heq]
        exact hv1
      · rw [if_neg (not_lt.mpr h1), if_neg (not_le.mpr hlt)]
        by_cases h2 : f ≤ b2
        · rw [if_neg (by rintro ⟨ha, _⟩; linarith),
            if_neg (by intro ha; linarith),
            if_pos ⟨h1, h2⟩, if_pos h2]
        · push_neg at h2
          rw [if_neg (not_le.mpr h2)]
          by_cases h3 : f ≤ b3
          · rcases eq_or_lt_of_le h3 with heq3 | hlt3
            · rw [if_neg (by rintro ⟨_, hb⟩; rw [heq3] at hb; exact lt_irrefl _ hb),
                if_neg (by intro ha; rw [heq3] at ha; linarith),
                if_neg (by rintro ⟨_, hb⟩; linarith),
                if_pos h3, heq3]
              exact hv3
            · rw [if_pos ⟨h2, hlt3⟩, if_pos h3]
          · push_neg at h3
            rw [if_neg (not_le.mpr h3)]
            by_cases h4 : f ≤ b4
            · rw [if_neg (by rintro ⟨_, hb⟩; linarith),
                if_neg (by intro ha; linarith),
                if_neg (by rintro ⟨_, hb⟩; linarith),
                if_pos h4]
            · push_neg at h4
              rw [if_neg (by rintro ⟨_, hb⟩; linarith),
                if_pos h4,
                if_neg (not_le.mpr h4)]
  rw [hFH]
  exact piecewiseH_continuous b1 b2 b3 b4 G0 G1 G2 _ _ (by fun_prop) (by fun_prop)
    hb12.le hb23 hb34.le hv1 hv2 hv3 hv4

theorem eq_getSmoothGain_continuous_witness :
    ContinuousOn (fun f => eqWitnessState.getSmoothGain f)
      (Set.Icc 0 ((eqWitnessState.sampleRate : ℝ) / 2)) :=
  eq_getSmoothGain_continuous eqWitnessState
    (by norm_num [eqWitnessState]) (by norm_num [eqWitnessState])
    (by norm_num [eqWitnessState])

/-- C10: under the precondition `startFreq ≥ 1` (so bin `0`, whose
frequency is `0` Hz, is never selected) every index the reduction loop of
`applyDeEsser` touches — including each mirror bin `FRAME_SIZE - j` —
lies strictly below `FRAME_SIZE`, so the out-of-bounds branch of a total
indexing model is unreachable; without that precondition (whenever
`startFreq ≤ 0 ≤ endFreq`) the loop at `j = 0` addresses index
`FRAME_SIZE` itself, one past the end of the array. -/
theorem deEsser_reduction_indices_bounds (sampleRate startFreq endFreq : ℤ) :
    (1 ≤ startFreq →
       ∀ idx ∈ deEsserAccessedIndices sampleRate startFreq endFreq, idx < 2048)
    ∧ (startFreq ≤ 0 → 0 ≤ endFreq →
       2048 ∈ deEsserAccessedIndices sampleRate startFreq endFreq) := by
  constructor
  · intro hsf idx hidx
    unfold deEsserAccessedIndices at hidx
    simp only [List.mem_flatMap, List.mem_filter, List.mem_range,
      decide_eq_true_eq] at hidx
    obtain ⟨j, ⟨hj1024, hsel⟩, hmem⟩ := hidx
    obtain ⟨hs1, _⟩ := hsel
    have hj1 : 1 ≤ j := by
      by_contra hc
      have hj0 : j = 0 := by omega
      subst hj0
      have h1q : (1 : ℚ) ≤ (startFreq : ℚ) := by exact_mod_cast hsf
      norm_num at hs1
      linarith
    simp only [List.mem_cons, List.not_mem_nil, or_false, List.mem_singleton] at hmem
    rcases hmem with h | h <;> omega
  · intro hsf hef
    unfold deEsserAccessedIndices
    simp only [List.mem_flatMap, List.mem_filter, List.mem_range, decide_eq_true_eq]
    refine ⟨0, ⟨by norm_num, ?_, ?_⟩, by simp⟩
    · have : (startFreq : ℚ) ≤ 0 := by exact_mod_cast hsf
      norm_num
      linarith
    · have : (0 : ℚ) ≤ (endFreq : ℚ) := by exact_mod_cast hef
      norm_num
      linarith

theorem deEsser_reduction_indices_bounds_witness :
    (∀ idx ∈ deEsserAccessedIndices 48000 4000 8000, idx < 2048)
    ∧ 2048 ∈ deEsserAccessedIndices 48000 (-1) 0 :=
  ⟨(deEsser_reduction_indices_bounds 48000 4000 8000).1 (by norm_num),
   (deEsser_reduction_indices_bounds 48000 (-1) 0).2 (by norm_num) (by norm_num)⟩

theorem idft_dft (N : ℕ) (x : ℕ → ℂ) (j : ℕ) (hj : j < N) :
    idft N (dft N x) j = N * x j := by
  have hN0 : N ≠ 0 := by omega
  have hNC : (N : ℂ) ≠ 0 := Nat.cast_ne_zero.mpr hN0
  set ω : ℂ := Complex.exp (2 * Real.pi * Complex.I / N) with hω
  have hprim : IsPrimitiveRoot ω N := Complex.isPrimitiveRoot_exp N hN0
  have hexp : ∀ n k : ℕ,
      Complex.exp (-(2 * Real.pi * Complex.I) * k * n / N)
        * Complex.exp ((2 * Real.pi * Complex.I) * j * k / N)
      = (ω ^ ((j : ℤ) - (n : ℤ))) ^ k := by
    intro n k
    rw [← Complex.exp_add]
    have h1 : ω ^ ((j : ℤ) - (n : ℤ))
        = Complex.exp ((((j : ℤ) - (n : ℤ) : ℤ) : ℂ) * (2 * Real.pi * Complex.I / N)) :=
      (Complex.exp_int_mul _ _).symm
    rw [h1, ← Complex.exp_nat_mul]
    congr 1
    push_cast
    field_simp
    ring
  have horth : ∀ n ∈ Finset.range N,
      (∑ k ∈ Finset.range N, (ω ^ ((j : ℤ) - (n : ℤ))) ^ k)
        = if n = j then (N : ℂ) else 0 := by
    intro n hn
    by_cases hnj : n = j
    · subst hnj
      simp [sub_self]
    · rw [if_neg hnj]
      have hd0 : (j : ℤ) - (n : ℤ) ≠ 0 := by
        intro hc
        apply hnj
        omega
      have hζ1 : ω ^ ((j : ℤ) - (n : ℤ)) ≠ 1 := by
        intro hc
        have hdvd := (hprim.zpow_eq_one_iff_dvd ((j : ℤ) - (n : ℤ))).mp hc
        have hnN := Finset.mem_range.mp hn
        have hlt : |(j : ℤ) - (n : ℤ)| < N := by
          rw [abs_lt]
          omega
        have := Int.le_of_dvd (abs_pos.mpr hd0) ((dvd_abs _ _).mpr hdvd)
        omega
      have hζN : (ω ^ ((j : ℤ) - (n : ℤ))) ^ N = 1 := by
        rw [← zpow_natCast, ← zpow_mul, mul_comm, zpow_mul, zpow_natCast,
          hprim.pow_eq_one, one_zpow]
      rw [geom_sum_eq hζ1, hζN]
      simp
  unfold idft dft
  calc
    ∑ k ∈ Finset.range N,
        (∑ n ∈ Finset.range N, x n * Complex.exp (-(2 * Real.pi * Complex.I) * k * n / N))
          * Complex.exp ((2 * Real.pi * Complex.I) * j * k / N)
      = ∑ k ∈ Finset.range N, ∑ n ∈ Finset.range N,
          x n * ((ω ^ ((j : ℤ) - (n : ℤ))) ^ k) := by
        refine Finset.sum_congr rfl (fun k _ => ?_)
        rw [Finset.sum_mul]
        refine Finset.sum_congr rfl (fun n _ => ?_)
        rw [mul_assoc, hexp n k]
    _ = ∑ n ∈ Finset.range N, x n * (∑ k ∈ Finset.range N, (ω ^ ((j : ℤ) - (n : ℤ))) ^ k) := by
        rw [Finset.sum_comm]
        exact Finset.sum_congr rfl (fun n _ => (Finset.mul_sum _ _ _).symm)
    _ = ∑ n ∈ Finset.range N, x n * (if n = j then (N : ℂ) else 0) := by
        exact Finset.sum_congr rfl (fun n hn => by rw [horth n hn])
    _ = (N : ℂ) * x j := by
        rw [Finset.sum_eq_single j]
        · rw [if_pos rfl]; ring
        · intro n _ hnj
          rw [if_neg hnj, mul_zero]
        · intro hc
          exact absurd (Finset.mem_range.mpr hj) hc

theorem list_set_getD_self (l : List ℂ) (i : ℕ) : l.set i (l.getD i 0) = l := by
  induction l generalizing i with
  | nil => simp
  | cons x xs ih =>
    cases i with
    | zero => simp
    | succ i => simpa [List.getD_eq_getElem?_getD] using ih i

theorem scaleAt_one (l : List ℂ) (i : ℕ) : scaleAt l i 1 = l := by
  unfold scaleAt
  have h : (⟨(1 : ℝ) * (l.getD i 0).re, (1 : ℝ) * (l.getD i 0).im⟩ : ℂ) = l.getD i 0 := by
    apply Complex.ext <;> simp
  rw [h]
  exact list_set_getD_self l i

theorem reductionPass_one (sampleRate startFreq endFreq : ℤ) (out : List ℂ) :
    applyDeEsserReductionPass sampleRate startFreq endFreq 1 out = out := by
  unfold applyDeEsserReductionPass
  generalize List.range (2048 / 2) = L
  induction L generalizing out with
  | nil => rfl
  | cons j L ih =>
    rw [List.foldl_cons]
    split
    · rw [scaleAt_one, scaleAt_one]
      exact ih out
    · exact ih out

theorem range_map_getD (n k : ℕ) (f : ℕ → ℂ) (h : k < n) :
    ((List.range n).map f).getD k 0 = f k := by
  rw [List.getD_eq_getElem?_getD]
  simp [List.getElem?_map, List.getElem?_range h]

theorem map_range_getD_self (l : List ℝ) :
    (List.range l.length).map (fun j => l.getD j 0) = l := by
  apply List.ext_getElem (by simp)
  intro i h1 h2
  simp [List.getD_eq_getElem?_getD, List.getElem?_eq_getElem h2]

theorem applyDeEsserFrame_one (sampleRate startFreq endFreq : ℤ) (frame : List ℝ)
    (hlen : frame.length ≤ 2048) :
    applyDeEsserFrame sampleRate startFreq endFreq 1 frame = frame := by
  unfold applyDeEsserFrame
  dsimp only
  rw [reductionPass_one]
  have hstep : ∀ j ∈ List.range frame.length,
      (idft 2048
          (fun k => (((List.range 2048).map
            (fun k => dft 2048
              (fun j => if j < frame.length then ((frame.getD j 0 : ℝ) : ℂ) else 0) k)).getD k 0))
          j).re / 2048
        = frame.getD j 0 := by
    intro j hj
    have hjlen := List.mem_range.mp hj
    have hj2048 : j < 2048 := lt_of_lt_of_le hjlen hlen
    have hsum : idft 2048
        (fun k => (((List.range 2048).map
          (fun k => dft 2048
            (fun j => if j < frame.length then ((frame.getD j 0 : ℝ) : ℂ) else 0) k)).getD k 0))
        j
        = idft 2048
          (dft 2048 (fun j => if j < frame.length then ((frame.getD j 0 : ℝ) : ℂ) else 0)) j := by
      unfold idft
      refine Finset.sum_congr rfl (fun k hk => ?_)
      dsimp only
      rw [range_map_getD 2048 k _ (List.mem_range.mp hk)]
    rw [hsum, idft_dft 2048 _ j hj2048, if_pos hjlen]
    have : ((2048 : ℕ) : ℂ) * ((frame.getD j 0 : ℝ) : ℂ)
        = (((2048 * frame.getD j 0 : ℝ)) : ℂ) := by
      push_cast
      ring
    rw [this, Complex.ofReal_re]
    exact mul_div_cancel_left₀ _ (by norm_num)
  calc (List.range frame.length).map _
      = (List.range frame.length).map (fun j => frame.getD j 0) :=
        List.map_congr_left hstep
    _ = frame := map_range_getD_self frame

theorem applyDeEsserFrames_one (sampleRate startFreq endFreq : ℤ) (samples : List ℝ) :
    applyDeEsserFrames sampleRate startFreq endFreq 1 samples = samples := by
  generalize hn : samples.length = n
  induction n using Nat.strong_induction_on generalizing samples with
  | _ n ih =>
    rw [applyDeEsserFrames]
    split
    · rename_i h
      rw [h]
    · rename_i h
      have hpos : 0 < samples.length := List.length_pos.mpr h
      rw [applyDeEsserFrame_one _ _ _ _ (by simp),
        ih (samples.drop 2048).length (by simp [List.length_drop]; omega)
          (samples.drop 2048) rfl]
      exact List.take_append_drop 2048 samples

/-- C9: `applyDeEsser` with `reductionDB = 0` is the identity on every
sample array, for every sample rate and frequency band: the linear factor
is `10^0 = 1`, the reduction loop leaves every bin unchanged, and the
forward transform, inverse transform and division by the frame size
compose to the identity over exact real arithmetic. -/
theorem deEsser_zero_reduction_identity (samples : List ℝ)
    (sampleRate startFreq endFreq : ℤ) :
    applyDeEsser samples sampleRate startFreq endFreq 0 = samples := by
  unfold applyDeEsser
  split
  · rfl
  · rw [show ((10 : ℝ) ^ (-(0 : ℝ) / 20)) = 1 by
        rw [neg_zero, zero_div, Real.rpow_zero]]
    exact applyDeEsserFrames_one sampleRate startFreq endFreq samples
